import Mathlib

/-!
A shallow embedding of the HTML-to-Markdown conversion pipeline of
`src/lib/htmlToMarkdown.ts`.

Strings are modelled as `List Char`.  The repository-owned logic — the
input validation, the early input cut, the sanitizer policy (allowed
tags, attribute and scheme lists, tag transforms, the
`exclusiveFilter`), the DOM normalisation tree-walk, the two custom
turndown rules, the post-processing regex chain and the length limit —
is translated directly from the source.  The external collaborators
(the WHATWG URL parser, the sanitize-html engine and the turndown
renderer core) are modelled from the specification; each such
definition says so in its doc comment.
-/

namespace HtmlMd

/-- Strings are modelled as lists of characters. -/
abbrev Str := List Char

/-- The common JS whitespace characters: the ASCII part of the class
recognised by `String.prototype.trim` and by the regex class for
whitespace. -/
def isWsChar (c : Char) : Bool :=
  c == ' ' || c == '\t' || c == '\n' || c == '\r' || c == '\x0b' || c == '\x0c'

/-- Model of JS `String.prototype.trim` (used as `.trim()` throughout
the source). -/
def trimStr (s : Str) : Str :=
  ((s.dropWhile isWsChar).reverse.dropWhile isWsChar).reverse

/-- Model of JS `String.prototype.includes`: substring containment. -/
def containsSub (needle : Str) : Str → Bool
  | [] => needle.isEmpty
  | c :: cs => needle.isPrefixOf (c :: cs) || containsSub needle cs

/-- Lower-casing a string (the URL parser lower-cases schemes and
hostnames). -/
def toLowerStr (s : Str) : Str := s.map Char.toLower

/-- Hexadecimal digit value, if any. -/
def hexVal (c : Char) : Option Nat :=
  if '0' ≤ c ∧ c ≤ '9' then some (c.toNat - ('0').toNat)
  else if 'a' ≤ c ∧ c ≤ 'f' then some (c.toNat - ('a').toNat + 10)
  else if 'A' ≤ c ∧ c ≤ 'F' then some (c.toNat - ('A').toNat + 10)
  else none

/-- Modelled from the spec: the pieces of a parsed URL that the source
reads (`url.hostname`, `url.searchParams`).  The WHATWG `URL` class
itself is an external collaborator and is not part of the repository
source. -/
structure UrlParts where
  scheme : Str
  hostname : Str
  query : Str

/-- First character a scheme may start with. -/
def isSchemeStart (c : Char) : Bool := c.isAlpha

/-- Characters a scheme may contain. -/
def isSchemeChar (c : Char) : Bool := c.isAlphanum || c == '+' || c == '-' || c == '.'

/-- Modelled from the spec: splitting a leading `scheme:` off a URL
string; fails when there is no syntactically valid scheme followed by
a colon (`new URL` raises on such input). -/
def splitScheme (s : Str) : Option (Str × Str) :=
  match s.takeWhile isSchemeChar, s.dropWhile isSchemeChar with
  | c :: cs, ':' :: r => if isSchemeStart c then some (c :: cs, r) else none
  | _, _ => none

/-- Characters ending the host part of an authority. -/
def isHostEnd (c : Char) : Bool := c == '/' || c == '?' || c == '#' || c == ':'

/-- The query part of the remainder of a URL after the authority: what
stands between the first question mark and the fragment. -/
def extractQuery (s : Str) : Str :=
  match (s.takeWhile (fun c => !(c == '#'))).dropWhile (fun c => !(c == '?')) with
  | '?' :: r => r
  | _ => []

/-- Special web schemes, which require a non-empty host. -/
def specialSchemes : List Str :=
  [("http").toList, ("https").toList, ("ws").toList, ("wss").toList, ("ftp").toList]

/-- Modelled from the spec: the WHATWG URL parser used by the source
via `new URL(href)`, reduced to the fields the source reads.  An
absolute URL is a scheme followed by a colon; with an authority part
(`scheme://host...`) the hostname is the lower-cased authority up to
the first slash, question mark, hash or colon, and the special web
schemes require it to be non-empty; without an authority the hostname
is empty and special schemes are rejected.  A string without a valid
scheme (in particular a relative URL or the empty string) does not
parse, which in the source surfaces as the `URL` constructor
throwing. -/
def parseURL (s : Str) : Option UrlParts :=
  match splitScheme s with
  | none => none
  | some (sch, rest) =>
    let schL := toLowerStr sch
    match rest with
    | '/' :: '/' :: r =>
      let host := r.takeWhile (fun c => !isHostEnd c)
      let tl := r.dropWhile (fun c => !isHostEnd c)
      if specialSchemes.contains schL && host.isEmpty then none
      else some ⟨schL, toLowerStr host, extractQuery tl⟩
    | r =>
      if specialSchemes.contains schL then none
      else some ⟨schL, [], extractQuery r⟩

/-- Modelled from the spec: the forgiving percent-decoding performed
by `URLSearchParams` — a plus sign becomes a space, a valid `%hh`
escape becomes the character with that code (multi-byte UTF-8
sequences are modelled per byte), and an invalid escape is kept
literally; this decoding never raises. -/
def percentDecodePlus : Str → Str
  | [] => []
  | '+' :: rest => ' ' :: percentDecodePlus rest
  | '%' :: c1 :: c2 :: rest =>
    match hexVal c1, hexVal c2 with
    | some h, some l => Char.ofNat (16 * h + l) :: percentDecodePlus rest
    | _, _ => '%' :: percentDecodePlus (c1 :: c2 :: rest)
  | c :: rest => c :: percentDecodePlus rest

/-- Modelled from the spec: `decodeURIComponent`, which raises on an
invalid percent escape (modelled as `none`); a plus sign is not
special here, and multi-byte UTF-8 sequences are modelled per
byte. -/
def decodeURIComponentOpt : Str → Option Str
  | [] => some []
  | '%' :: c1 :: c2 :: rest =>
    (match hexVal c1, hexVal c2 with
     | some h, some l =>
       match decodeURIComponentOpt rest with
       | some r => some (Char.ofNat (16 * h + l) :: r)
       | none => none
     | _, _ => none)
  | '%' :: _ => none
  | c :: rest =>
    match decodeURIComponentOpt rest with
    | some r => some (c :: r)
    | none => none

/-- Splitting a query string at ampersands. -/
def splitAmp (acc : Str) : Str → List Str
  | [] => [acc.reverse]
  | '&' :: rest => acc.reverse :: splitAmp [] rest
  | c :: rest => splitAmp (c :: acc) rest

/-- A raw `key=value` pair of a query string (value empty when there
is no equals sign). -/
def pairOfParam (p : Str) : Str × Str :=
  match p.dropWhile (fun c => !(c == '=')) with
  | '=' :: v => (p.takeWhile (fun c => !(c == '=')), v)
  | _ => (p.takeWhile (fun c => !(c == '=')), [])

/-- Modelled from the spec: `URLSearchParams.get` on a query string —
split on ampersands, split each pair at the first equals sign, decode
keys and values with the forgiving decoder, and return the first value
whose key matches. -/
def searchParamGet (query : Str) (name : Str) : Option Str :=
  match (splitAmp [] query).find? (fun p => percentDecodePlus (pairOfParam p).1 == name) with
  | some p => some (percentDecodePlus (pairOfParam p).2)
  | none => none

/-- The DOM node kinds relevant to the pipeline (spec section 3):
elements with a tag name, attributes and ordered children, and text
nodes.  Comments, scripts and styles do not survive sanitisation, so
nothing else is modelled. -/
inductive Node where
  | text (s : Str)
  | elem (tag : Str) (attrs : List (Str × Str)) (children : List Node)

mutual
/-- DOM `textContent` of a node: the concatenation of all text
descendants, in document order. -/
def textContent : Node → Str
  | .text s => s
  | .elem _ _ cs => textContentF cs
/-- DOM `textContent` of a forest of siblings. -/
def textContentF : List Node → Str
  | [] => []
  | n :: ns => textContent n ++ textContentF ns
end

/-- Looking an attribute up by name (DOM `getAttribute`, with `none`
for an absent attribute). -/
def getAttr (attrs : List (Str × Str)) (name : Str) : Option Str :=
  match attrs.find? (fun kv => kv.1 == name) with
  | some kv => some kv.2
  | none => none

/-- The conversion options of the source (`HtmlToMarkdownOptions`,
lines 5-26), with the defaults destructured at lines 32-38. -/
structure Options where
  preserveTables : Bool := false
  maxLength : Nat := 0
  includeImageAlt : Bool := true
  allowedDomains : List Str := []
  preserveLineBreaks : Bool := false

/-- The allowed tag list built at source lines 51-60: the base list,
extended with the table tags when `preserveTables`. -/
def allowedTags (preserveTables : Bool) : List Str :=
  ([("p"), ("br"), ("b"), ("strong"), ("i"), ("em"), ("a"),
    ("ul"), ("ol"), ("li"), ("blockquote"), ("code"),
    ("pre"), ("h1"), ("h2"), ("h3"), ("h4"), ("h5"), ("h6"),
    ("img"), ("hr")].map String.toList) ++
  (if preserveTables then
    [("table"), ("thead"), ("tbody"), ("tr"), ("th"), ("td")].map String.toList
   else [])

/-- The `transformTags` map of source lines 73-85: a `div` becomes a
paragraph when `preserveLineBreaks` and is otherwise mapped to the
empty tag name (which is not an allowed tag, so the wrapper is
unwrapped); `span` is always unwrapped; the sectioning tags become
paragraphs, `aside` a blockquote, and over-deep headings `h6`. -/
def transformTag (preserveLineBreaks : Bool) (tag : Str) : Str :=
  if tag == ("div").toList then (if preserveLineBreaks then ("p").toList else [])
  else if tag == ("span").toList then []
  else if tag == ("section").toList then ("p").toList
  else if tag == ("article").toList then ("p").toList
  else if tag == ("header").toList then ("p").toList
  else if tag == ("footer").toList then ("p").toList
  else if tag == ("aside").toList then ("blockquote").toList
  else if tag == ("h7").toList then ("h6").toList
  else if tag == ("h8").toList then ("h6").toList
  else tag

/-- The per-tag attribute allow-list of source lines 65-68: `href` and
`title` on anchors; `src`, `title` and — only when `includeImageAlt` —
`alt` on images; nothing anywhere else. -/
def allowedAttrNames (includeImageAlt : Bool) (tag : Str) : List Str :=
  if tag == ("a").toList then [("href"), ("title")].map String.toList
  else if tag == ("img").toList then
    (if includeImageAlt then [("src"), ("alt"), ("title")] else [("src"), ("title")]).map String.toList
  else []

/-- The allowed URL schemes of source lines 69-72: `http`, `https`
and `mailto` generally, with `data` additionally allowed (replacing
`mailto`) on images. -/
def allowedSchemesFor (tag : Str) : List Str :=
  if tag == ("img").toList then [("http"), ("https"), ("data")].map String.toList
  else [("http"), ("https"), ("mailto")].map String.toList

/-- The syntactic scheme of an attribute value, if it has one
(sanitize-html only scheme-checks values that carry a scheme;
scheme-less, i.e. relative, URLs pass). -/
def schemeOf (v : Str) : Option Str :=
  match splitScheme v with
  | some (sch, _) => some (toLowerStr sch)
  | none => none

/-- Whether one attribute survives filtering: its name must be in the
per-tag allow-list, and a `href`/`src` value carrying a scheme must
carry an allowed one. -/
def attrAllowed (includeImageAlt : Bool) (tag : Str) (kv : Str × Str) : Bool :=
  (allowedAttrNames includeImageAlt tag).contains kv.1 &&
  (if kv.1 == ("href").toList || kv.1 == ("src").toList then
     match schemeOf kv.2 with
     | some sch => (allowedSchemesFor tag).contains sch
     | none => true
   else true)

/-- The `exclusiveFilter` of source lines 88-100, translated
literally: with an empty domain whitelist nothing is removed; with a
non-empty one, an anchor carrying a truthy (non-empty) `href` is
removed unless the href parses and its hostname is whitelisted, and a
parse failure removes it; an anchor with an absent or empty `href`
skips the check and is kept. -/
def exclusiveFilterRemoves (allowedDomains : List Str) (tag : Str) (attrs : List (Str × Str)) : Bool :=
  if allowedDomains.isEmpty then false
  else if tag == ("a").toList then
    match getAttr attrs (("href").toList) with
    | some href =>
      if href.isEmpty then false
      else
        match parseURL href with
        | some u => !(allowedDomains.contains u.hostname)
        | none => true
    | none => false
  else false

/-- Tags whose content sanitize-html drops entirely rather than
unwrapping (its default `nonTextTags`). -/
def nonTextTags : List Str :=
  [("script"), ("style"), ("textarea"), ("option")].map String.toList

mutual
/-- Modelled from the spec: the sanitize-html engine applying the
policy the source constructs at lines 62-101.  Tag transforms are
applied first; a non-text disallowed tag is unwrapped, keeping its
(recursively sanitised) content, while script-like tags lose their
content; an element the `exclusiveFilter` matches is removed together
with its content; a kept element keeps only its allowed
attributes. -/
def sanitizeNode (opts : Options) : Node → List Node
  | .text s => [.text s]
  | .elem tag attrs children =>
    let tag2 := transformTag opts.preserveLineBreaks tag
    if nonTextTags.contains tag2 then []
    else if !((allowedTags opts.preserveTables).contains tag2) then sanitizeForest opts children
    else if exclusiveFilterRemoves opts.allowedDomains tag2 attrs then []
    else [.elem tag2 (attrs.filter (attrAllowed opts.includeImageAlt tag2)) (sanitizeForest opts children)]
/-- Sanitisation of a forest of siblings. -/
def sanitizeForest (opts : Options) : List Node → List Node
  | [] => []
  | n :: ns => sanitizeNode opts n ++ sanitizeForest opts ns
end

mutual
/-- The DOM normalisation pass of source lines 107-133, translated
literally.  The TreeWalker filter REJECTs a `p`/`div` whose trimmed
text content is empty, which only skips the element and its subtree
during traversal — the element itself stays in the DOM untouched.
Every other element the walker visits whose trimmed text content is
empty is collected and later removed together with its subtree
(`el.remove()`), and the walker does descend into accepted
elements. -/
def normalizeNode : Node → List Node
  | .text s => [.text s]
  | .elem tag attrs children =>
    if (tag == ("p").toList || tag == ("div").toList) && (trimStr (textContentF children)).isEmpty then
      [.elem tag attrs children]
    else if (trimStr (textContentF children)).isEmpty then
      []
    else
      [.elem tag attrs (normalizeForest children)]
/-- Normalisation of a forest of siblings. -/
def normalizeForest : List Node → List Node
  | [] => []
  | n :: ns => normalizeNode n ++ normalizeForest ns
end

/-- The filter of the custom `emailLinks` turndown rule (source lines
159-164): an anchor whose `href` is truthy and contains one of the two
redirect markers. -/
def emailLinksFilter (tag : Str) (attrs : List (Str × Str)) : Bool :=
  tag == ("a").toList &&
  (match getAttr attrs (("href").toList) with
   | some href =>
     !href.isEmpty &&
     (containsSub (("safelink.emails").toList) href || containsSub (("redirect").toList) href)
   | none => false)

/-- The replacement of the custom `emailLinks` turndown rule (source
lines 165-182), translated literally: parse the href, read its
`destination` query parameter, decode it with `decodeURIComponent` and
use the decoded URL as the link target; when parsing or decoding
raises, or there is no such parameter, fall back to an inline link on
the original href. -/
def emailLinksReplacement (content : Str) (href : Str) : Str :=
  match parseURL href with
  | some u =>
    (match searchParamGet u.query (("destination").toList) with
     | some d =>
       (match decodeURIComponentOpt d with
        | some dec => '[' :: content ++ ']' :: '(' :: dec ++ [')']
        | none => '[' :: content ++ ']' :: '(' :: href ++ [')'])
     | none => '[' :: content ++ ']' :: '(' :: href ++ [')'])
  | none => '[' :: content ++ ']' :: '(' :: href ++ [')']

/-- The ATX heading level of a heading tag, if the tag is one. -/
def headingLevel (tag : Str) : Option Nat :=
  match tag with
  | ['h', c] => if '1' ≤ c ∧ c ≤ '6' then some (c.toNat - ('0').toNat) else none
  | _ => none

/-- Concatenation of a list of strings. -/
def concatStrs : List Str → Str
  | [] => []
  | s :: ss => s ++ concatStrs ss

/-- One pipe-delimited table row from its rendered cells. -/
def pipeRow (cells : List Str) : Str :=
  '|' :: concatStrs (cells.map (fun c => ' ' :: c ++ [' ', '|'])) ++ ['\n']

/-- The header-separator row under the first table row. -/
def sepRow (n : Nat) : Str :=
  '|' :: concatStrs (List.replicate n ((" --- |").toList)) ++ ['\n']

mutual
/-- The number of nodes of a tree, used to compute a sufficient fuel
for the renderer. -/
def nodeSize : Node → Nat
  | .text _ => 1
  | .elem _ _ cs => 1 + forestSize cs
/-- The number of nodes of a forest. -/
def forestSize : List Node → Nat
  | [] => 0
  | n :: ns => nodeSize n + forestSize ns
end

/-- The kid forest of a node when it is a `tr` row, as a singleton. -/
def trKids (n : Node) : List (List Node) :=
  match n with
  | .elem tag _ kids => if tag == ("tr").toList then [kids] else []
  | .text _ => []

/-- The row kid-forests of a table: the kid forests of its `tr`
children, also looking through a `thead`/`tbody` wrapper. -/
def rowForests : List Node → List (List Node)
  | [] => []
  | .text _ :: rest => rowForests rest
  | .elem tag _ kids :: rest =>
    if tag == ("tr").toList then kids :: rowForests rest
    else if tag == ("thead").toList || tag == ("tbody").toList then
      kids.flatMap trKids ++ rowForests rest
    else rowForests rest

/-- The cell kid-forests of one table row: the kid forests of its
`td`/`th` children. -/
def cellForests : List Node → List (List Node)
  | [] => []
  | .text _ :: rest => cellForests rest
  | .elem tag _ kids :: rest =>
    if tag == ("td").toList || tag == ("th").toList then kids :: cellForests rest
    else cellForests rest

/-- Modelled from the spec (section 4.3): the rule-driven Markdown
renderer — turndown initialised with the options of source lines
136-146 and the two custom rules of lines 149-183 — written with a
structural fuel so that it computes by kernel reduction; `renderForest`
below instantiates the fuel with a sufficient bound.  Children are
rendered first; rules are dispatched first-match per element with the
custom rules taking precedence (they are registered after the
built-ins); an element no rule matches falls back to its rendered
children unchanged; a table renders as pipe-delimited rows with a
header-separator row after the first, and a table without any row
falls back to the generic rendering of its children. -/
def renderF : Nat → Options → List Node → Str
  | 0, _, _ => []
  | _ + 1, _, [] => []
  | fuel + 1, opts, .text s :: ns => s ++ renderF fuel opts ns
  | fuel + 1, opts, .elem tag attrs children :: ns =>
    (let content := renderF fuel opts children
     if emailLinksFilter tag attrs then
       emailLinksReplacement content ((getAttr attrs (("href").toList)).getD [])
     else if tag == ("p").toList then
       if (trimStr content).isEmpty then []
       else '\n' :: '\n' :: trimStr content ++ ['\n', '\n']
     else if tag == ("br").toList then
       (if opts.preserveLineBreaks then ['\n'] else [' '])
     else if tag == ("a").toList then
       '[' :: content ++ ']' :: '(' :: ((getAttr attrs (("href").toList)).getD []) ++ [')']
     else if tag == ("img").toList then
       '!' :: '[' ::
         (if opts.includeImageAlt then (getAttr attrs (("alt").toList)).getD [] else []) ++
         ']' :: '(' :: ((getAttr attrs (("src").toList)).getD []) ++ [')']
     else if tag == ("hr").toList then
       '\n' :: '\n' :: '-' :: '-' :: '-' :: ['\n', '\n']
     else if tag == ("strong").toList || tag == ("b").toList then
       '*' :: '*' :: content ++ ['*', '*']
     else if tag == ("em").toList || tag == ("i").toList then
       '*' :: content ++ ['*']
     else if tag == ("li").toList then
       '\n' :: '-' :: ' ' :: trimStr content
     else if tag == ("ul").toList || tag == ("ol").toList then
       '\n' :: '\n' :: content ++ ['\n', '\n']
     else if tag == ("blockquote").toList then
       '\n' :: '\n' :: '>' :: ' ' :: trimStr content ++ ['\n', '\n']
     else
       match headingLevel tag with
       | some k => '\n' :: '\n' :: List.replicate k '#' ++ ' ' :: content ++ ['\n', '\n']
       | none =>
         if tag == ("table").toList then
           match rowForests children with
           | [] => renderF fuel opts children
           | r :: rs =>
             '\n' :: '\n' ::
               pipeRow ((cellForests r).map (fun cell => renderF fuel opts cell)) ++
               sepRow (cellForests r).length ++
               concatStrs (rs.map (fun row =>
                 pipeRow ((cellForests row).map (fun cell => renderF fuel opts cell)))) ++
               ['\n', '\n']
         else content) ++
    renderF fuel opts ns

/-- Rendering of a forest of siblings: the fueled renderer at a
sufficient fuel (one unit per node plus one). -/
def renderForest (opts : Options) (f : List Node) : Str :=
  renderF (forestSize f + 1) opts f

/-- What a pending run of newlines becomes under the first cleanup
regex: three or more collapse to exactly two. -/
def flushNl (n : Nat) : Str :=
  if 3 ≤ n then ['\n', '\n'] else List.replicate n '\n'

/-- The first cleanup regex of source line 194 (three or more
consecutive newlines become two), as a left-to-right scan carrying the
length of the pending newline run. -/
def collapseNlAux : Nat → Str → Str
  | n, [] => flushNl n
  | n, c :: cs =>
    if c == '\n' then collapseNlAux (n + 1) cs
    else flushNl n ++ c :: collapseNlAux 0 cs

/-- The third cleanup regex of source line 198 (newlines glued to a
heading marker become exactly one blank line), as a scan carrying the
pending newline run. -/
def fixHeadAux : Nat → Str → Str
  | n, [] => List.replicate n '\n'
  | n, c :: cs =>
    if c == '\n' then fixHeadAux (n + 1) cs
    else if c == '#' && decide (1 ≤ n) then '\n' :: '\n' :: '#' :: fixHeadAux 0 cs
    else List.replicate n '\n' ++ c :: fixHeadAux 0 cs

/-- A list bullet character of the fourth cleanup regex. -/
def isBullet (c : Char) : Bool := c == '-' || c == '*' || c == '+'

/-- The fourth cleanup regex of source line 200 (a newline run, then
optional whitespace, then a list marker, lose all but one leading
newline), as a scan whose state buffers a whitespace run that started
with a newline.  The buffered run is flushed verbatim when no marker
follows it — matching the regex, which cannot match anywhere inside a
whitespace run that is not followed by a marker. -/
def fixListsAux : Option Str → Str → Str
  | none, [] => []
  | some buf, [] => buf
  | none, c :: cs =>
    if c == '\n' then fixListsAux (some ['\n']) cs
    else c :: fixListsAux none cs
  | some buf, c :: cs =>
    if isWsChar c then fixListsAux (some (buf ++ [c])) cs
    else if isBullet c then
      '\n' :: (buf.dropWhile (fun x => x == '\n')) ++ c :: fixListsAux none cs
    else buf ++ c :: fixListsAux none cs

/-- The fifth cleanup regex of source line 202 (an empty link — an
empty square-bracket pair followed by a parenthesised target — is
removed), as a scan whose state buffers the characters seen after an
opening empty-link delimiter until the closing parenthesis.  A buffer
never contains a closing parenthesis, so when the input ends inside a
candidate the buffered text is flushed verbatim — matching the regex,
which cannot match anywhere in a tail without a closing
parenthesis. -/
def remLinksAux : Option Str → Str → Str
  | none, [] => []
  | some buf, [] => '[' :: ']' :: '(' :: buf
  | none, '[' :: ']' :: '(' :: rest => remLinksAux (some []) rest
  | none, c :: cs => c :: remLinksAux none cs
  | some buf, c :: cs =>
    if c == ')' then remLinksAux none cs
    else remLinksAux (some (buf ++ [c])) cs

/-- What a pending run of spaces becomes under the sixth cleanup
regex: two or more collapse to one. -/
def flushSp (n : Nat) : Str :=
  if 2 ≤ n then [' '] else List.replicate n ' '

/-- The sixth cleanup regex of source line 204 (runs of two or more
spaces become one), as a scan carrying the pending space run. -/
def collapseSpAux : Nat → Str → Str
  | n, [] => flushSp n
  | n, c :: cs =>
    if c == ' ' then collapseSpAux (n + 1) cs
    else flushSp n ++ c :: collapseSpAux 0 cs

/-- The ordered post-processing cleanup chain of source lines 192-204:
collapse newline runs, trim, fix heading spacing, fix list spacing,
remove empty links, collapse space runs. -/
def postRegex (m : Str) : Str :=
  collapseSpAux 0 (remLinksAux none (fixListsAux none (fixHeadAux 0 (trimStr (collapseNlAux 0 m)))))

/-- The length limit of source lines 206-209: when `maxLength` is
positive and the markdown is longer, cut it to exactly `maxLength`
characters and append a literal ellipsis. -/
def lengthLimit (maxLength : Nat) (markdown : Str) : Str :=
  if 0 < maxLength ∧ maxLength < markdown.length then
    markdown.take maxLength ++ ("...").toList
  else markdown

/-- The whole post-processor (spec section 4.4): the cleanup chain
followed by the length limit. -/
def postProcess (maxLength : Nat) (m : Str) : Str :=
  lengthLimit maxLength (postRegex m)

/-- The early input cut of source lines 45-48: with a positive
`maxLength`, input longer than ten times it is cut to that length
before the pipeline runs. -/
def inputCut (maxLength : Nat) (html : Str) : Str :=
  if 0 < maxLength ∧ maxLength * 10 < html.length then html.take (maxLength * 10) else html

/-- The conversion pipeline applied to a parsed DOM forest: sanitise,
normalise, render, clean up (source steps 1-4 before the length
limit).  DOM construction itself is an external collaborator, so the
parser enters as a parameter below. -/
def renderPipeline (opts : Options) (f : List Node) : Str :=
  postRegex (renderForest opts (normalizeForest (sanitizeForest opts f)))

/-- The markdown value the source holds just before the length limit
is applied, for a given parser. -/
def rawMarkdown (parse : Str → List Node) (opts : Options) (html : Str) : Str :=
  renderPipeline opts (parse (inputCut opts.maxLength html))

/-- The full conversion on a parsed forest, including the length
limit. -/
def convertForest (opts : Options) (f : List Node) : Str :=
  lengthLimit opts.maxLength (renderPipeline opts f)

/-- `htmlToMarkdown` of source lines 28-212: the input validation of
lines 40-43 returns the empty string for falsy input (the non-string
case is excluded here by typing), then the early cut and the pipeline
run and the length limit is applied.  The function is total: no error
is ever raised. -/
def htmlToMarkdown (parse : Str → List Node) (html : Str) (opts : Options) : Str :=
  if html.isEmpty then [] else lengthLimit opts.maxLength (rawMarkdown parse opts html)

/-- `htmlToMarkdownSimple` of source lines 217-219: the conversion
with all options at their defaults. -/
def htmlToMarkdownSimple (parse : Str → List Node) (html : Str) : Str :=
  htmlToMarkdown parse html {}

/-- The parsed DOM of the spec scenario input for line-break modes,
`<p>A<br>B</p>`. -/
def c6Forest : List Node :=
  [.elem (("p").toList) []
    [.text (("A").toList), .elem (("br").toList) [] [], .text (("B").toList)]]

/-- The redirect-wrapped href of the spec redirect-unwrapping
scenario. -/
def c7Href : Str :=
  ("https://safelink.emails.example/?destination=https%3A%2F%2Freal.example").toList

/-- The parsed DOM of the spec redirect-unwrapping scenario input. -/
def c7Forest : List Node :=
  [.elem (("a").toList) [((("href").toList), c7Href)] [.text (("click").toList)]]

/-- Whitespace-only strings. -/
def allWs (s : Str) : Bool := s.all isWsChar

mutual
/-- An input consisting only of empty or whitespace-only paragraph and
div elements: every node is a whitespace-only text node or a `p`/`div`
element whose children are again of this shape. -/
def wsOnlyNode : Node → Bool
  | .text s => allWs s
  | .elem tag _ children =>
    (tag == ("p").toList || tag == ("div").toList) && wsOnlyForest children
/-- The forest version of `wsOnlyNode`. -/
def wsOnlyForest : List Node → Bool
  | [] => true
  | n :: ns => wsOnlyNode n && wsOnlyForest ns
end

mutual
/-- The sanitised shape of a whitespace-only input: whitespace-only
text nodes and `p` elements. -/
def pwsNode : Node → Bool
  | .text s => allWs s
  | .elem tag _ children => (tag == ("p").toList) && pwsForest children
/-- The forest version of `pwsNode`. -/
def pwsForest : List Node → Bool
  | [] => true
  | n :: ns => pwsNode n && pwsForest ns
end

/-- An attribute value that cannot contribute a pipe character to the
rendered output: it holds no pipe itself, and it is not a
redirect-marker URL (which the email-link rule would rewrite by
percent-decoding, and a percent escape can decode to a pipe). -/
def cleanAttr (kv : Str × Str) : Bool :=
  !(decide ('|' ∈ kv.2)) &&
  !(containsSub (("safelink.emails").toList) kv.2) &&
  !(containsSub (("redirect").toList) kv.2)

mutual
/-- A pipe-free input: no text node and no attribute value carries a
pipe character, and no attribute value is a redirect-marker URL. -/
def cleanNode : Node → Bool
  | .text s => !(decide ('|' ∈ s))
  | .elem _ attrs children => attrs.all cleanAttr && cleanForest children
/-- The forest version of `cleanNode`. -/
def cleanForest : List Node → Bool
  | [] => true
  | n :: ns => cleanNode n && cleanForest ns
end

mutual
/-- The sanitised shape of a pipe-free input when tables are not
preserved: pipe-free, and holding no `table` element. -/
def safeNode : Node → Bool
  | .text s => !(decide ('|' ∈ s))
  | .elem tag attrs children =>
    !(tag == ("table").toList) && attrs.all cleanAttr && safeForest children
/-- The forest version of `safeNode`. -/
def safeForest : List Node → Bool
  | [] => true
  | n :: ns => safeNode n && safeForest ns
end

/-- The parsed DOM of a representative table input: a header row and a
data row. -/
def c5TableForest : List Node :=
  [.elem (("table").toList) []
    [.elem (("tr").toList) [] [.elem (("th").toList) [] [.text (("H").toList)]],
     .elem (("tr").toList) [] [.elem (("td").toList) [] [.text (("A").toList)]]]]

end HtmlMd

namespace HtmlMd

/-- C1 counterexample: at the empty input, `htmlToMarkdown` returns a
value — the empty string — rather than raising an error (the
validation of source lines 40-43 is `return ''`, and the embedded
function is total). -/
theorem c1_empty_input_returns_value :
  htmlToMarkdown (fun _ => []) [] {} = [] := rfl

/-- C1 amended: for empty (falsy) input both entry points return the
empty string without entering the pipeline and never raise; a
whitespace-only input is not detected by the validation and flows
through the pipeline. -/
theorem c1_falsy_input_yields_empty (parse : Str → List Node) (opts : Options) :
  htmlToMarkdown parse [] opts = [] ∧
  htmlToMarkdownSimple parse [] = [] ∧
  htmlToMarkdown parse [' '] opts = lengthLimit opts.maxLength (rawMarkdown parse opts [' ']) :=
  ⟨rfl, rfl, rfl⟩

/-- C3: the normalisation pass of source lines 107-133 leaves the
empty paragraph in the DOM — the REJECT filter only skips it during
traversal, it does not remove it — while it does remove the `img`
element, whose text content is empty and which is not exempt; both
halves of the claimed invariant fail at this input. -/
theorem c3_normalizer_keeps_empty_p_and_drops_img :
  normalizeForest
    [Node.elem (("p").toList) [] [],
     Node.elem (("img").toList) [((("src").toList), (("http://x/a.png").toList))] []]
  = [Node.elem (("p").toList) [] []] := rfl

/-- C4 counterexample: the post-processor is not idempotent — at this
input, removing the inner empty link exposes a new empty link that
only a second pass removes, so applying the post-processor twice
differs from applying it once. -/
theorem c4_not_idempotent :
  postProcess 0 (postProcess 0 (("[[](a)](b)").toList))
    ≠ postProcess 0 (("[[](a)](b)").toList) := by decide

/-- C4 amended: the maxLength truncation step of the post-processor is
idempotent — applying it to its own output yields the same string —
while the regex cleanup chain before it is not (see the
counterexample). -/
theorem c4_truncation_idempotent (n : Nat) (m : Str) :
  lengthLimit n (lengthLimit n m) = lengthLimit n m := by
  by_cases h : 0 < n ∧ n < m.length
  · have hinner : lengthLimit n m = m.take n ++ ("...").toList := by
      rw [lengthLimit, if_pos h]
    have hlen : (m.take n ++ ("...").toList).length = n + 3 := by
      simp [List.length_take]
      omega
    have h2 : 0 < n ∧ n < (m.take n ++ ("...").toList).length := by
      rw [hlen]; exact ⟨h.1, by omega⟩
    have htake : (m.take n ++ ("...").toList).take n = m.take n := by
      rw [List.take_append_eq_append_take, List.take_take]
      simp [List.length_take]
      omega
    rw [hinner, lengthLimit, if_pos h2, htake]
  · have hinner : lengthLimit n m = m := by
      rw [lengthLimit, if_neg h]
    rw [hinner, lengthLimit, if_neg h]

/-- C6: at the input `<p>A<br>B</p>` the `br` element is removed by
the normalisation pass (its text content is empty and `br` is visited
by the walker), so the line-break option of source line 145 never sees
it: both modes return the glued string `AB`, not `A B` and not `A`
and `B` on separate lines. -/
theorem c6_br_removed_in_both_modes :
  htmlToMarkdown (fun _ => c6Forest) (("<p>A<br>B</p>").toList) {} = ("AB").toList ∧
  htmlToMarkdown (fun _ => c6Forest) (("<p>A<br>B</p>").toList)
      { preserveLineBreaks := true } = ("AB").toList :=
  ⟨rfl, rfl⟩

/-- C10: with a positive maxLength, input beyond the first
maxLength * 10 characters never influences the output — the conversion
of a long input equals the conversion of its cut prefix. -/
theorem c10_input_cut_determines_output (parse : Str → List Node) (html : Str)
    (opts : Options) (h1 : 0 < opts.maxLength) (h2 : opts.maxLength * 10 < html.length) :
    htmlToMarkdown parse html opts
      = htmlToMarkdown parse (html.take (opts.maxLength * 10)) opts := by
  have hne : html.isEmpty = false := by
    cases html with
    | nil => simp at h2
    | cons c cs => rfl
  have hne2 : (html.take (opts.maxLength * 10)).isEmpty = false := by
    have : (html.take (opts.maxLength * 10)).length = opts.maxLength * 10 := by
      rw [List.length_take]
      omega
    cases hx : html.take (opts.maxLength * 10) with
    | nil => rw [hx] at this; simp at this; omega
    | cons c cs => rfl
  have hcut1 : inputCut opts.maxLength html = html.take (opts.maxLength * 10) := by
    rw [inputCut, if_pos ⟨h1, h2⟩]
  have hcut2 : inputCut opts.maxLength (html.take (opts.maxLength * 10))
      = html.take (opts.maxLength * 10) := by
    rw [inputCut, if_neg]
    intro hcon
    rw [List.length_take] at hcon
    omega
  rw [htmlToMarkdown, htmlToMarkdown, hne, hne2]
  simp only [Bool.false_eq_true, if_false]
  rw [rawMarkdown, rawMarkdown, hcut1, hcut2]

/-- C2: with a positive maxLength the output of the conversion is at
most maxLength + 3 characters long, and exactly maxLength + 3
characters long whenever truncation occurred, i.e. whenever the
markdown held just before the length limit exceeded maxLength on a
non-empty input (the 3 extra characters are the appended ellipsis). -/
theorem c2_length_bound (parse : Str → List Node) (html : Str) (opts : Options)
    (h : 0 < opts.maxLength) :
    (htmlToMarkdown parse html opts).length ≤ opts.maxLength + 3 ∧
    (html.isEmpty = false →
      opts.maxLength < (rawMarkdown parse opts html).length →
      (htmlToMarkdown parse html opts).length = opts.maxLength + 3) := by
  by_cases hhe : html.isEmpty = true
  · constructor
    · simp [htmlToMarkdown, hhe]
    · intro hc
      rw [hc] at hhe
      cases hhe
  · have hhe2 : html.isEmpty = false := by
      cases h2 : html.isEmpty with
      | true => exact absurd h2 hhe
      | false => rfl
    have hout : htmlToMarkdown parse html opts
        = lengthLimit opts.maxLength (rawMarkdown parse opts html) := by
      simp [htmlToMarkdown, hhe2]
    rw [hout]
    constructor
    · by_cases hc : 0 < opts.maxLength
          ∧ opts.maxLength < (rawMarkdown parse opts html).length
      · rw [lengthLimit, if_pos hc]
        simp [List.length_take]
      · rw [lengthLimit, if_neg hc]
        omega
    · intro _ hlt
      rw [lengthLimit, if_pos ⟨h, hlt⟩]
      simp [List.length_take]
      omega

/-- C2 witness: the theorem applied at a concrete input on which
truncation does occur. -/
theorem c2_length_bound_witness :
  0 < ({ maxLength := 2 } : Options).maxLength ∧
  ((htmlToMarkdown (fun _ => [Node.text (("hello world").toList)]) (("x").toList)
      { maxLength := 2 }).length ≤ ({ maxLength := 2 } : Options).maxLength + 3 ∧
   ((("x").toList).isEmpty = false →
    ({ maxLength := 2 } : Options).maxLength
        < (rawMarkdown (fun _ => [Node.text (("hello world").toList)])
            { maxLength := 2 } (("x").toList)).length →
    (htmlToMarkdown (fun _ => [Node.text (("hello world").toList)]) (("x").toList)
        { maxLength := 2 }).length = ({ maxLength := 2 } : Options).maxLength + 3)) :=
  ⟨by decide,
   c2_length_bound (fun _ => [Node.text (("hello world").toList)]) (("x").toList)
     { maxLength := 2 } (by decide)⟩

/-- C7: the redirect-unwrapping scenario of the spec produces exactly
the unwrapped link, and — for any anchor content and href — when the
href does not parse as a URL, or its destination parameter does not
decode, the emailLinks rule falls back to rendering the original href;
the replacement is a total function, so it never raises. -/
theorem c7_redirect_unwrapping :
  htmlToMarkdown (fun _ => c7Forest)
      (("<a href=\"https://safelink.emails.example/?destination=https%3A%2F%2Freal.example\">click</a>").toList)
      {} = ("[click](https://real.example)").toList ∧
  (∀ content href, parseURL href = none →
    emailLinksReplacement content href
      = '[' :: content ++ ']' :: '(' :: href ++ [')']) ∧
  (∀ content href u d, parseURL href = some u →
    searchParamGet u.query (("destination").toList) = some d →
    decodeURIComponentOpt d = none →
    emailLinksReplacement content href
      = '[' :: content ++ ']' :: '(' :: href ++ [')']) := by
  refine ⟨rfl, ?_, ?_⟩
  · intro content href h
    simp [emailLinksReplacement, h]
  · intro content href u d h1 h2 h3
    simp only [emailLinksReplacement, h1, h2, h3]

/-- C7 witness: both fallback branches of the theorem applied at
concrete anchors — a marker-matching href that does not parse, and one
whose destination parameter does not decode. -/
theorem c7_redirect_unwrapping_witness :
  emailLinksReplacement (("x").toList) (("redirect").toList)
    = '[' :: ("x").toList ++ ']' :: '(' :: ("redirect").toList ++ [')'] ∧
  emailLinksReplacement (("y").toList) (("https://r.example/redirect?destination=%zz").toList)
    = '[' :: ("y").toList ++ ']' :: '(' ::
        ("https://r.example/redirect?destination=%zz").toList ++ [')'] :=
  ⟨c7_redirect_unwrapping.2.1 (("x").toList) (("redirect").toList) rfl,
   c7_redirect_unwrapping.2.2 (("y").toList)
     (("https://r.example/redirect?destination=%zz").toList)
     ⟨("https").toList, ("r.example").toList, ("destination=%zz").toList⟩
     (("%zz").toList) rfl rfl rfl⟩

/-- C8 counterexample: with a non-empty whitelist, an anchor whose
href attribute is the empty string — which does not parse as a URL —
is kept rather than removed: the exclusiveFilter tests the href for
truthiness before attempting to parse it, so this malformed URL is
passed through. -/
theorem c8_empty_href_kept :
  parseURL [] = none ∧
  sanitizeForest { allowedDomains := [("a.com").toList] }
      [Node.elem (("a").toList) [((("href").toList), [])] [Node.text (("x").toList)]]
    = [Node.elem (("a").toList) [((("href").toList), [])] [Node.text (("x").toList)]] :=
  ⟨rfl, rfl⟩

/-- C8 amended: with a non-empty allowedDomains list the sanitizer
removes every anchor whose href resolves to a hostname outside the
list, and every anchor whose href is non-empty but fails to parse;
an anchor whose href is empty (or absent) skips the domain check and
is kept; with an empty allowedDomains list no anchor is removed on
domain grounds. -/
theorem c8_domain_filtering (opts : Options) (attrs : List (Str × Str)) (kids : List Node) :
  (∀ href u, opts.allowedDomains ≠ [] →
     getAttr attrs (("href").toList) = some href →
     parseURL href = some u →
     opts.allowedDomains.contains u.hostname = false →
     sanitizeNode opts (.elem (("a").toList) attrs kids) = []) ∧
  (∀ href, opts.allowedDomains ≠ [] →
     getAttr attrs (("href").toList) = some href → href ≠ [] →
     parseURL href = none →
     sanitizeNode opts (.elem (("a").toList) attrs kids) = []) ∧
  (opts.allowedDomains = [] →
     sanitizeNode opts (.elem (("a").toList) attrs kids)
       = [.elem (("a").toList)
            (attrs.filter (attrAllowed opts.includeImageAlt (("a").toList)))
            (sanitizeForest opts kids)]) := by
  have hs : sanitizeNode opts (.elem (("a").toList) attrs kids)
      = if exclusiveFilterRemoves opts.allowedDomains (("a").toList) attrs then []
        else [.elem (("a").toList)
          (attrs.filter (attrAllowed opts.includeImageAlt (("a").toList)))
          (sanitizeForest opts kids)] := rfl
  refine ⟨?_, ?_, ?_⟩
  · intro href u hne hget hp hc
    have hie : opts.allowedDomains.isEmpty = false := by
      cases hl : opts.allowedDomains with
      | nil => exact absurd hl hne
      | cons a l => rfl
    have hne3 : ¬ href = [] := by
      intro hcon
      rw [hcon] at hp
      rw [show parseURL ([] : Str) = none from rfl] at hp
      cases hp
    rw [hs, if_pos]
    simp at hget hc
    simp [exclusiveFilterRemoves, hie, hget, hp, hc, hne3]
  · intro href hne hget hne2 hp
    have hie : opts.allowedDomains.isEmpty = false := by
      cases hl : opts.allowedDomains with
      | nil => exact absurd hl hne
      | cons a l => rfl
    have hhe : href.isEmpty = false := by
      cases hh : href with
      | nil => exact absurd hh hne2
      | cons c cs => rfl
    rw [hs, if_pos]
    simp at hget
    simp [exclusiveFilterRemoves, hie, hget, hhe, hp]
  · intro hd
    rw [hs, if_neg]
    simp [exclusiveFilterRemoves, hd]

/-- C8 witness: the two removal branches of the theorem applied at
concrete anchors — a whitelisted configuration with an off-list
domain, and one with a malformed (relative) href. -/
theorem c8_domain_filtering_witness :
  sanitizeNode { allowedDomains := [("a.com").toList] }
      (.elem (("a").toList)
        [((("href").toList), (("https://b.com/z").toList))] [Node.text (("y").toList)]) = [] ∧
  sanitizeNode { allowedDomains := [("a.com").toList] }
      (.elem (("a").toList)
        [((("href").toList), (("/rel/path").toList))] [Node.text (("y").toList)]) = [] :=
  ⟨(c8_domain_filtering { allowedDomains := [("a.com").toList] }
      [((("href").toList), (("https://b.com/z").toList))] [Node.text (("y").toList)]).1
      (("https://b.com/z").toList) ⟨("https").toList, ("b.com").toList, []⟩
      (by decide) rfl rfl (by decide),
   (c8_domain_filtering { allowedDomains := [("a.com").toList] }
      [((("href").toList), (("/rel/path").toList))] [Node.text (("y").toList)]).2.1
      (("/rel/path").toList) (by decide) rfl (by decide) rfl⟩

/-- C10 witness: the theorem applied at a concrete long input. -/
theorem c10_input_cut_determines_output_witness :
  0 < ({ maxLength := 1 } : Options).maxLength ∧
  ({ maxLength := 1 } : Options).maxLength * 10 < (("abcdefghijk").toList).length ∧
  htmlToMarkdown (fun _ => []) (("abcdefghijk").toList) { maxLength := 1 }
    = htmlToMarkdown (fun _ => []) ((("abcdefghijk").toList).take
        (({ maxLength := 1 } : Options).maxLength * 10)) { maxLength := 1 } :=
  ⟨by decide, by decide,
   c10_input_cut_determines_output (fun _ => []) (("abcdefghijk").toList)
     { maxLength := 1 } (by decide) (by decide)⟩

end HtmlMd

namespace HtmlMd

/-- Whitespace-only lists of a given character. -/
theorem allWs_replicate (n : Nat) (c : Char) (h : isWsChar c = true) :
    allWs (List.replicate n c) = true := by
  induction n with
  | zero => rfl
  | succ n ih =>
    simp only [List.replicate, allWs, List.all_cons, Bool.and_eq_true]
    exact ⟨h, by simpa [allWs] using ih⟩

/-- Trimming a whitespace-only string yields the empty string. -/
theorem trim_allWs (s : Str) (h : allWs s = true) : trimStr s = [] := by
  have h1 : s.dropWhile isWsChar = [] := by
    induction s with
    | nil => rfl
    | cons c cs ih =>
      simp only [allWs, List.all_cons, Bool.and_eq_true] at h
      simp only [List.dropWhile_cons, h.1, if_true]
      exact ih h.2
  rw [trimStr, h1]
  rfl

/-- The paragraph-and-whitespace shape is closed under appending. -/
theorem pwsForest_append (a b : List Node) (ha : pwsForest a = true)
    (hb : pwsForest b = true) : pwsForest (a ++ b) = true := by
  induction a with
  | nil => simpa using hb
  | cons n ns ih =>
    simp only [pwsForest, Bool.and_eq_true] at ha
    simp only [List.cons_append, pwsForest, Bool.and_eq_true]
    exact ⟨ha.1, ih ha.2⟩

mutual
/-- Sanitising a whitespace-only-paragraphs input yields only
whitespace text and paragraph elements. -/
theorem sanitize_wsOnly_node (opts : Options) :
    ∀ n, wsOnlyNode n = true → pwsForest (sanitizeNode opts n) = true
  | .text s, h => by
    simp only [wsOnlyNode] at h
    simp [sanitizeNode, pwsForest, pwsNode, h]
  | .elem tag attrs children, h => by
    simp only [wsOnlyNode, Bool.and_eq_true, Bool.or_eq_true, beq_iff_eq] at h
    obtain ⟨htag, hch⟩ := h
    have hrec := sanitize_wsOnly_forest opts children hch
    obtain ⟨pt, ml, ia, ad, plb⟩ := opts
    rcases htag with htag | htag
    · subst htag
      have hs : sanitizeNode ⟨pt, ml, ia, ad, plb⟩ (.elem (("p").toList) attrs children)
          = if exclusiveFilterRemoves ad (("p").toList) attrs then []
            else [.elem (("p").toList)
              (attrs.filter (attrAllowed ia (("p").toList)))
              (sanitizeForest ⟨pt, ml, ia, ad, plb⟩ children)] := rfl
      have hef : exclusiveFilterRemoves ad (("p").toList) attrs = false := by
        rw [exclusiveFilterRemoves]
        split
        · rfl
        · rfl
      rw [hs, hef]
      simp [pwsForest, pwsNode, hrec]
    · subst htag
      cases plb with
      | true =>
        have hs : sanitizeNode ⟨pt, ml, ia, ad, true⟩ (.elem (("div").toList) attrs children)
            = if exclusiveFilterRemoves ad (("p").toList) attrs then []
              else [.elem (("p").toList)
                (attrs.filter (attrAllowed ia (("p").toList)))
                (sanitizeForest ⟨pt, ml, ia, ad, true⟩ children)] := rfl
        have hef : exclusiveFilterRemoves ad (("p").toList) attrs = false := by
          rw [exclusiveFilterRemoves]
          split
          · rfl
          · rfl
        rw [hs, hef]
        simp [pwsForest, pwsNode, hrec]
      | false =>
        cases pt with
        | false =>
          have hs : sanitizeNode ⟨false, ml, ia, ad, false⟩
              (.elem (("div").toList) attrs children)
              = sanitizeForest ⟨false, ml, ia, ad, false⟩ children := rfl
          rw [hs]
          exact hrec
        | true =>
          have hs : sanitizeNode ⟨true, ml, ia, ad, false⟩
              (.elem (("div").toList) attrs children)
              = sanitizeForest ⟨true, ml, ia, ad, false⟩ children := rfl
          rw [hs]
          exact hrec
/-- The forest version of `sanitize_wsOnly_node`. -/
theorem sanitize_wsOnly_forest (opts : Options) :
    ∀ f, wsOnlyForest f = true → pwsForest (sanitizeForest opts f) = true
  | [], _ => rfl
  | n :: ns, h => by
    simp only [wsOnlyForest, Bool.and_eq_true] at h
    simp only [sanitizeForest]
    exact pwsForest_append _ _ (sanitize_wsOnly_node opts n h.1)
      (sanitize_wsOnly_forest opts ns h.2)
end

mutual
/-- The text content of a paragraph-and-whitespace node is whitespace
only. -/
theorem textContent_pws (n : Node) (h : pwsNode n = true) :
    allWs (textContent n) = true := by
  cases n with
  | text s => simpa [textContent, pwsNode] using h
  | elem tag attrs children =>
    simp only [pwsNode, Bool.and_eq_true] at h
    simpa [textContent] using textContentF_pws children h.2
/-- The forest version of `textContent_pws`. -/
theorem textContentF_pws (f : List Node) (h : pwsForest f = true) :
    allWs (textContentF f) = true := by
  cases f with
  | nil => rfl
  | cons n ns =>
    simp only [pwsForest, Bool.and_eq_true] at h
    simp only [textContentF, allWs, List.all_append, Bool.and_eq_true]
    constructor
    · simpa [allWs] using textContent_pws n h.1
    · simpa [allWs] using textContentF_pws ns h.2
end

/-- Normalisation leaves a paragraph-and-whitespace node unchanged:
such a paragraph is REJECTed by the walker filter and survives
untouched. -/
theorem normalize_pws_node (n : Node) (h : pwsNode n = true) :
    normalizeNode n = [n] := by
  cases n with
  | text s => rfl
  | elem tag attrs children =>
    simp only [pwsNode, Bool.and_eq_true, beq_iff_eq] at h
    obtain ⟨htag, hch⟩ := h
    subst htag
    have htr : trimStr (textContentF children) = [] :=
      trim_allWs _ (textContentF_pws children hch)
    simp [normalizeNode, htr]

/-- The forest version of `normalize_pws_node`. -/
theorem normalize_pws_forest (f : List Node) (h : pwsForest f = true) :
    normalizeForest f = f := by
  induction f with
  | nil => rfl
  | cons n ns ih =>
    simp only [pwsForest, Bool.and_eq_true] at h
    simp only [normalizeForest, normalize_pws_node n h.1, ih h.2, List.cons_append,
      List.nil_append]

/-- Rendering a paragraph-and-whitespace forest yields whitespace
only, for any fuel: each paragraph renders to the empty string and
text nodes are whitespace. -/
theorem renderF_pws (fuel : Nat) : ∀ (opts : Options) (f : List Node),
    pwsForest f = true → allWs (renderF fuel opts f) = true := by
  induction fuel with
  | zero => intro opts f h; rfl
  | succ fuel ih =>
    intro opts f h
    cases f with
    | nil => rfl
    | cons n ns =>
      simp only [pwsForest, Bool.and_eq_true] at h
      obtain ⟨hn, hns⟩ := h
      cases n with
      | text s =>
        simp only [renderF, allWs, List.all_append, Bool.and_eq_true]
        constructor
        · simpa [pwsNode, allWs] using hn
        · simpa [allWs] using ih opts ns hns
      | elem tag attrs children =>
        simp only [pwsNode, Bool.and_eq_true, beq_iff_eq] at hn
        obtain ⟨htag, hch⟩ := hn
        subst htag
        have hc := ih opts children hch
        have htr : trimStr (renderF fuel opts children) = [] := trim_allWs _ hc
        have hfil : emailLinksFilter (("p").toList) attrs = false := rfl
        simp only [renderF, hfil, Bool.false_eq_true, if_false, htr]
        simpa using ih opts ns hns

/-- A whitespace-only string survives the newline-collapsing scan as
whitespace only. -/
theorem collapseNl_allWs (s : Str) : ∀ n : Nat, allWs s = true →
    allWs (collapseNlAux n s) = true := by
  induction s with
  | nil =>
    intro n _
    simp only [collapseNlAux, flushNl]
    split
    · rfl
    · exact allWs_replicate n '\n' rfl
  | cons c cs ih =>
    intro n h
    simp only [allWs, List.all_cons, Bool.and_eq_true] at h
    simp only [collapseNlAux]
    split
    · exact ih (n + 1) h.2
    · simp only [allWs, List.all_append, List.all_cons, Bool.and_eq_true]
      refine ⟨?_, h.1, ?_⟩
      · have : allWs (flushNl n) = true := by
          simp only [flushNl]
          split
          · rfl
          · exact allWs_replicate n '\n' rfl
        simpa [allWs] using this
      · simpa [allWs] using ih 0 h.2

/-- The post-processing chain maps a whitespace-only string to the
empty string (the trim step empties it and the later steps keep it
empty). -/
theorem postRegex_allWs (m : Str) (h : allWs m = true) : postRegex m = [] := by
  have h2 : trimStr (collapseNlAux 0 m) = [] := trim_allWs _ (collapseNl_allWs m 0 h)
  rw [postRegex, h2]
  rfl

/-- C9: an input consisting only of empty or whitespace-only paragraph
and div elements converts to the empty string, for every option set —
the sanitizer turns the divs into paragraphs or unwraps them, the
surviving whitespace renders to whitespace, and the post-processor
trims it away. -/
theorem c9_blank_blocks_give_empty (parse : Str → List Node) (html : Str)
    (opts : Options) (h1 : html.isEmpty = false)
    (h2 : wsOnlyForest (parse (inputCut opts.maxLength html)) = true) :
    htmlToMarkdown parse html opts = [] := by
  have hpws : pwsForest (sanitizeForest opts (parse (inputCut opts.maxLength html))) = true :=
    sanitize_wsOnly_forest opts _ h2
  have hpipe : renderPipeline opts (parse (inputCut opts.maxLength html)) = [] := by
    rw [renderPipeline, renderForest]
    apply postRegex_allWs
    apply renderF_pws
    rw [normalize_pws_forest _ hpws]
    exact hpws
  have hout : htmlToMarkdown parse html opts
      = lengthLimit opts.maxLength (rawMarkdown parse opts html) := by
    simp [htmlToMarkdown, h1]
  rw [hout, rawMarkdown, hpipe, lengthLimit, if_neg]
  intro hcon
  simp at hcon

/-- C9 witness: the theorem applied at a concrete blank-blocks
input. -/
theorem c9_blank_blocks_give_empty_witness :
  ((" ").toList).isEmpty = false ∧
  wsOnlyForest ((fun _ => [Node.elem (("p").toList) [] [],
      Node.elem (("div").toList) [] [Node.text (("  ").toList)]])
    (inputCut ({} : Options).maxLength ((" ").toList))) = true ∧
  htmlToMarkdown (fun _ => [Node.elem (("p").toList) [] [],
      Node.elem (("div").toList) [] [Node.text (("  ").toList)]])
    ((" ").toList) {} = [] :=
  ⟨by decide, by decide,
   c9_blank_blocks_give_empty
     (fun _ => [Node.elem (("p").toList) [] [],
       Node.elem (("div").toList) [] [Node.text (("  ").toList)]])
     ((" ").toList) {} (by decide) (by decide)⟩

end HtmlMd

namespace HtmlMd

/-- The safe shape is closed under appending. -/
theorem safeForest_append (a b : List Node) (ha : safeForest a = true)
    (hb : safeForest b = true) : safeForest (a ++ b) = true := by
  induction a with
  | nil => simpa using hb
  | cons n ns ih =>
    simp only [safeForest, Bool.and_eq_true] at ha
    simp only [List.cons_append, safeForest, Bool.and_eq_true]
    exact ⟨ha.1, ih ha.2⟩

/-- Filtering preserves a universally true Boolean property. -/
theorem all_of_filter {α : Type} (p q : α → Bool) (l : List α) (h : l.all q = true) :
    (l.filter p).all q = true := by
  rw [List.all_eq_true] at h ⊢
  intro a ha
  exact h a (List.mem_of_mem_filter ha)

/-- A value found by `getAttr` in a clean attribute list is pipe-free
and marker-free. -/
theorem getAttr_cleanVal (attrs : List (Str × Str)) (k v : Str)
    (hall : attrs.all cleanAttr = true) (h : getAttr attrs k = some v) :
    ('|' ∉ v) ∧
    containsSub (("safelink.emails").toList) v = false ∧
    containsSub (("redirect").toList) v = false := by
  rw [getAttr] at h
  cases hf : attrs.find? (fun kv => kv.1 == k) with
  | none => rw [hf] at h; cases h
  | some kv =>
    rw [hf] at h
    cases h
    have hm := List.mem_of_find?_eq_some hf
    have hkv := (List.all_eq_true.mp hall) kv hm
    simp only [cleanAttr, Bool.and_eq_true, Bool.not_eq_true',
      decide_eq_false_iff_not] at hkv
    exact ⟨hkv.1.1, hkv.1.2, hkv.2⟩

/-- On a clean attribute list the email-link rule never fires: its
href, when present, contains neither redirect marker. -/
theorem emailLinksFilter_clean (tag : Str) (attrs : List (Str × Str))
    (hall : attrs.all cleanAttr = true) : emailLinksFilter tag attrs = false := by
  rw [emailLinksFilter]
  cases ht : (tag == ("a").toList) with
  | false => rfl
  | true =>
    rw [Bool.true_and]
    cases hg : getAttr attrs (("href").toList) with
    | none => rfl
    | some v =>
      obtain ⟨h1, h2, h3⟩ := getAttr_cleanVal attrs _ v hall hg
      show (!v.isEmpty &&
        (containsSub (("safelink.emails").toList) v
          || containsSub (("redirect").toList) v)) = false
      rw [h2, h3]
      simp

mutual
/-- Sanitising a clean input with tables not preserved yields a safe
forest: pipe-free, marker-free and table-free (a `table` tag is not in
the allowed list, so the element is unwrapped). -/
theorem sanitize_clean_safe_node (ml : Nat) (ia : Bool) (ad : List Str) (plb : Bool) :
    ∀ n, cleanNode n = true →
      safeForest (sanitizeNode ⟨false, ml, ia, ad, plb⟩ n) = true
  | .text s, h => by
    simp only [cleanNode] at h
    simp only [sanitizeNode, safeForest, safeNode, Bool.and_true]
    exact h
  | .elem tag attrs children, h => by
    simp only [cleanNode, Bool.and_eq_true] at h
    obtain ⟨hattrs, hch⟩ := h
    have hrec := sanitize_clean_safe_forest ml ia ad plb children hch
    have hs : sanitizeNode ⟨false, ml, ia, ad, plb⟩ (.elem tag attrs children)
        = (if nonTextTags.contains (transformTag plb tag) then []
           else if !((allowedTags false).contains (transformTag plb tag)) then
             sanitizeForest ⟨false, ml, ia, ad, plb⟩ children
           else if exclusiveFilterRemoves ad (transformTag plb tag) attrs then []
           else [.elem (transformTag plb tag)
             (attrs.filter (attrAllowed ia (transformTag plb tag)))
             (sanitizeForest ⟨false, ml, ia, ad, plb⟩ children)]) := rfl
    rw [hs]
    generalize transformTag plb tag = t
    split
    · rfl
    · split
      · exact hrec
      · split
        · rfl
        · rename_i hnt hal hex
          have hcont : (allowedTags false).contains t = true := by
            cases hc : (allowedTags false).contains t with
            | true => rfl
            | false =>
              refine absurd ?_ hal
              rw [hc]
              rfl
          have htb : (t == ("table").toList) = false := by
            cases hbe : t == ("table").toList with
            | false => rfl
            | true =>
              have he : t = ("table").toList := by simpa using hbe
              rw [he] at hcont
              have hno : (allowedTags false).contains (("table").toList) = false := by
                decide
              rw [hcont] at hno
              cases hno
          simp only [safeForest, safeNode, Bool.and_eq_true, Bool.and_true,
            Bool.not_eq_true']
          exact ⟨⟨htb, all_of_filter _ _ _ hattrs⟩, hrec⟩
/-- The forest version of `sanitize_clean_safe_node`. -/
theorem sanitize_clean_safe_forest (ml : Nat) (ia : Bool) (ad : List Str) (plb : Bool) :
    ∀ f, cleanForest f = true →
      safeForest (sanitizeForest ⟨false, ml, ia, ad, plb⟩ f) = true
  | [], _ => rfl
  | n :: ns, h => by
    simp only [cleanForest, Bool.and_eq_true] at h
    simp only [sanitizeForest]
    exact safeForest_append _ _ (sanitize_clean_safe_node ml ia ad plb n h.1)
      (sanitize_clean_safe_forest ml ia ad plb ns h.2)
end

mutual
/-- Normalisation preserves the safe shape: it removes elements or
copies them with the same tag and attributes. -/
theorem normalize_safe_node : ∀ n, safeNode n = true → safeForest (normalizeNode n) = true
  | .text s, h => by
    simp only [safeNode] at h
    simp only [normalizeNode, safeForest, safeNode, Bool.and_true]
    exact h
  | .elem tag attrs children, h => by
    have hparts : ((tag == ("table").toList) = false ∧ attrs.all cleanAttr = true) ∧
        safeForest children = true := by
      simpa only [safeNode, Bool.and_eq_true, Bool.not_eq_true'] using h
    have hs : normalizeNode (.elem tag attrs children)
        = (if (tag == ("p").toList || tag == ("div").toList)
              && (trimStr (textContentF children)).isEmpty then
             [.elem tag attrs children]
           else if (trimStr (textContentF children)).isEmpty then []
           else [.elem tag attrs (normalizeForest children)]) := rfl
    rw [hs]
    split
    · simpa [safeForest] using h
    · split
      · rfl
      · simp only [safeForest, safeNode, Bool.and_eq_true, Bool.and_true,
          Bool.not_eq_true']
        exact ⟨hparts.1, normalize_safe_forest children hparts.2⟩
/-- The forest version of `normalize_safe_node`. -/
theorem normalize_safe_forest : ∀ f, safeForest f = true →
    safeForest (normalizeForest f) = true
  | [], _ => rfl
  | n :: ns, h => by
    simp only [safeForest, Bool.and_eq_true] at h
    simp only [normalizeForest]
    exact safeForest_append _ _ (normalize_safe_node n h.1)
      (normalize_safe_forest ns h.2)
end

end HtmlMd

namespace HtmlMd

/-- Characters of a trimmed string are characters of the string. -/
theorem mem_of_mem_trimStr (c : Char) (s : Str) (h : c ∈ trimStr s) : c ∈ s := by
  rw [trimStr, List.mem_reverse] at h
  have h2 := (List.dropWhile_sublist _).subset h
  rw [List.mem_reverse] at h2
  exact (List.dropWhile_sublist _).subset h2

/-- Non-membership distributes over an if-then-else of lists. -/
theorem not_mem_ite {α : Type} (c : Prop) [Decidable c] (a b : List α) (x : α)
    (ha : x ∉ a) (hb : x ∉ b) : x ∉ (if c then a else b) := by
  by_cases hc : c
  · simpa [hc] using ha
  · simpa [hc] using hb

/-- Rendering a safe forest emits no pipe character, whatever the
fuel: no rule except the table rule emits a pipe, text and attribute
values are pipe-free, and the email-link rule — the only rule that
percent-decodes — never fires on marker-free hrefs. -/
theorem renderF_safe_no_pipe (fuel : Nat) : ∀ (opts : Options) (f : List Node),
    safeForest f = true → ('|' : Char) ∉ renderF fuel opts f := by
  induction fuel with
  | zero =>
    intro opts f _ h
    simp only [renderF, List.not_mem_nil] at h
  | succ fuel ih =>
    intro opts f hsafe
    cases f with
    | nil =>
      intro h
      simp only [renderF, List.not_mem_nil] at h
    | cons n ns =>
      simp only [safeForest, Bool.and_eq_true] at hsafe
      obtain ⟨hn, hns⟩ := hsafe
      have hrest := ih opts ns hns
      cases n with
      | text s =>
        simp only [safeNode, Bool.not_eq_true', decide_eq_false_iff_not] at hn
        intro h
        simp only [renderF, List.mem_append] at h
        rcases h with h | h
        · exact hn h
        · exact hrest h
      | elem tag attrs children =>
        have hn2 : ((tag == ("table").toList) = false ∧ attrs.all cleanAttr = true)
            ∧ safeForest children = true := by
          simpa only [safeNode, Bool.and_eq_true, Bool.not_eq_true'] using hn
        obtain ⟨⟨htb, hattrs⟩, hch⟩ := hn2
        have hcontent := ih opts children hch
        have htrimc : ('|' : Char) ∉ trimStr (renderF fuel opts children) :=
          fun hx => hcontent (mem_of_mem_trimStr _ _ hx)
        have hfil : emailLinksFilter tag attrs = false :=
          emailLinksFilter_clean tag attrs hattrs
        have hhref : ('|' : Char) ∉ (getAttr attrs (("href").toList)).getD [] := by
          cases hv : getAttr attrs (("href").toList) with
          | none => simp
          | some v =>
            simp only [Option.getD_some]
            exact (getAttr_cleanVal attrs _ v hattrs hv).1
        have halt : ('|' : Char) ∉ (getAttr attrs (("alt").toList)).getD [] := by
          cases hv : getAttr attrs (("alt").toList) with
          | none => simp
          | some v =>
            simp only [Option.getD_some]
            exact (getAttr_cleanVal attrs _ v hattrs hv).1
        have hsrc : ('|' : Char) ∉ (getAttr attrs (("src").toList)).getD [] := by
          cases hv : getAttr attrs (("src").toList) with
          | none => simp
          | some v =>
            simp only [Option.getD_some]
            exact (getAttr_cleanVal attrs _ v hattrs hv).1
        intro hmem
        simp only [renderF, hfil, Bool.false_eq_true, if_false, htb,
          List.mem_append] at hmem
        rcases hmem with h | h
        · refine absurd h ?_
          apply not_mem_ite
          · apply not_mem_ite
            · simp
            · simp [htrimc]
          · apply not_mem_ite
            · apply not_mem_ite
              · simp
              · simp
            · apply not_mem_ite
              · simp [hcontent]
                simpa using hhref
              · apply not_mem_ite
                · by_cases hia : opts.includeImageAlt = true
                  · simp only [hia, if_true]
                    simp [hcontent]
                    constructor
                    · simpa using halt
                    · simpa using hsrc
                  · simp only [hia, if_false]
                    simp [hcontent]
                    simpa using hsrc
                · apply not_mem_ite
                  · simp
                  · apply not_mem_ite
                    · simp [hcontent]
                    · apply not_mem_ite
                      · simp [hcontent]
                      · apply not_mem_ite
                        · simp [htrimc]
                        · apply not_mem_ite
                          · simp [hcontent]
                          · apply not_mem_ite
                            · simp [htrimc]
                            · cases hhl : headingLevel tag with
                              | none => simpa using hcontent
                              | some k => simp [hcontent, List.mem_replicate]
        · exact hrest h

end HtmlMd

namespace HtmlMd

/-- The newline-collapsing scan introduces only newlines. -/
theorem collapseNl_no_pipe (s : Str) : ∀ n : Nat, ('|' : Char) ∉ s →
    ('|' : Char) ∉ collapseNlAux n s := by
  induction s with
  | nil =>
    intro n _
    simp only [collapseNlAux, flushNl]
    split
    · simp
    · simp [List.mem_replicate]
  | cons c cs ih =>
    intro n hs
    simp only [List.mem_cons, not_or] at hs
    simp only [collapseNlAux]
    split
    · exact ih (n + 1) hs.2
    · intro hmem
      simp only [List.mem_append, List.mem_cons] at hmem
      rcases hmem with h | h | h
      · revert h
        simp only [flushNl]
        split
        · simp
        · simp [List.mem_replicate]
      · exact hs.1 h
      · exact ih 0 hs.2 h

/-- The heading-spacing scan introduces only newlines and hashes. -/
theorem fixHead_no_pipe (s : Str) : ∀ n : Nat, ('|' : Char) ∉ s →
    ('|' : Char) ∉ fixHeadAux n s := by
  induction s with
  | nil =>
    intro n _
    simp [fixHeadAux, List.mem_replicate]
  | cons c cs ih =>
    intro n hs
    simp only [List.mem_cons, not_or] at hs
    simp only [fixHeadAux]
    split
    · exact ih (n + 1) hs.2
    · split
      · intro hmem
        simp only [List.mem_cons] at hmem
        rcases hmem with h | h | h | h
        · exact absurd h (by decide)
        · exact absurd h (by decide)
        · exact absurd h (by decide)
        · exact ih 0 hs.2 h
      · intro hmem
        simp only [List.mem_append, List.mem_cons, List.mem_replicate] at hmem
        rcases hmem with h | h | h
        · exact absurd h.2 (by decide)
        · exact hs.1 h
        · exact ih 0 hs.2 h

/-- The list-spacing scan emits only buffered input characters and
newlines. -/
theorem fixLists_no_pipe (s : Str) : ∀ st : Option Str, ('|' : Char) ∉ s →
    (∀ b, st = some b → ('|' : Char) ∉ b) → ('|' : Char) ∉ fixListsAux st s := by
  induction s with
  | nil =>
    intro st hs hst
    cases st with
    | none => simp [fixListsAux]
    | some buf => simpa [fixListsAux] using hst buf rfl
  | cons c cs ih =>
    intro st hs hst
    simp only [List.mem_cons, not_or] at hs
    cases st with
    | none =>
      simp only [fixListsAux]
      split
      · exact ih (some ['\n']) hs.2 (fun b hb => by cases hb; decide)
      · intro hmem
        rcases List.mem_cons.mp hmem with h | h
        · exact hs.1 h
        · exact ih none hs.2 (fun b hb => nomatch hb) h
    | some buf =>
      have hbuf := hst buf rfl
      simp only [fixListsAux]
      split
      · refine ih (some (buf ++ [c])) hs.2 (fun b hb => ?_)
        cases hb
        intro hmem
        rcases List.mem_append.mp hmem with h | h
        · exact hbuf h
        · simp only [List.mem_singleton] at h
          exact hs.1 h
      · split
        · intro hmem
          rcases List.mem_cons.mp hmem with h | hmem2
          · exact absurd h (by decide)
          · rcases List.mem_append.mp hmem2 with h | h2
            · exact hbuf ((List.dropWhile_sublist _).subset h)
            · rcases List.mem_cons.mp h2 with h | h
              · exact hs.1 h
              · exact ih none hs.2 (fun b hb => nomatch hb) h
        · intro hmem
          rcases List.mem_append.mp hmem with h | h2
          · exact hbuf h
          · rcases List.mem_cons.mp h2 with h | h
            · exact hs.1 h
            · exact ih none hs.2 (fun b hb => nomatch hb) h

/-- The empty-link removal scan emits only input and buffered
characters plus the bracket delimiters. -/
theorem remLinks_no_pipe (st : Option Str) (s : Str) (hs : ('|' : Char) ∉ s)
    (hst : ∀ b, st = some b → ('|' : Char) ∉ b) : ('|' : Char) ∉ remLinksAux st s := by
  induction st, s using remLinksAux.induct with
  | case1 => simp [remLinksAux]
  | case2 buf =>
    have hbuf := hst buf rfl
    intro hmem
    simp only [remLinksAux, List.mem_cons] at hmem
    rcases hmem with h | h | h | h
    · exact absurd h (by decide)
    · exact absurd h (by decide)
    · exact absurd h (by decide)
    · exact hbuf h
  | case3 rest ih =>
    simp only [remLinksAux]
    refine ih ?_ (fun b hb => by cases hb; decide)
    intro hmem
    refine hs ?_
    simp only [List.mem_cons]
    right; right; right; exact hmem
  | case4 c cs hne ih =>
    simp only [List.mem_cons, not_or] at hs
    simp only [remLinksAux]
    intro hmem
    rcases List.mem_cons.mp hmem with h | h
    · exact hs.1 h
    · exact ih hs.2 (fun b hb => nomatch hb) h
  | case5 buf c cs hcp ih =>
    simp only [List.mem_cons, not_or] at hs
    simp only [remLinksAux, hcp, if_true]
    exact ih hs.2 (fun b hb => nomatch hb)
  | case6 buf c cs hcp ih =>
    simp only [List.mem_cons, not_or] at hs
    simp only [remLinksAux, hcp, if_false]
    refine ih hs.2 (fun b hb => ?_)
    cases hb
    intro hmem
    rcases List.mem_append.mp hmem with h | h
    · exact hst buf rfl h
    · simp only [List.mem_singleton] at h
      exact hs.1 h

end HtmlMd

namespace HtmlMd

/-- The space-collapsing scan introduces only spaces. -/
theorem collapseSp_no_pipe (s : Str) : ∀ n : Nat, ('|' : Char) ∉ s →
    ('|' : Char) ∉ collapseSpAux n s := by
  induction s with
  | nil =>
    intro n _
    simp only [collapseSpAux, flushSp]
    split
    · simp
    · simp [List.mem_replicate]
  | cons c cs ih =>
    intro n hs
    simp only [List.mem_cons, not_or] at hs
    simp only [collapseSpAux]
    split
    · exact ih (n + 1) hs.2
    · intro hmem
      simp only [List.mem_append, List.mem_cons] at hmem
      rcases hmem with h | h | h
      · revert h
        simp only [flushSp]
        split
        · simp
        · simp [List.mem_replicate]
      · exact hs.1 h
      · exact ih 0 hs.2 h

/-- The length limit emits a prefix of its input plus the ellipsis. -/
theorem lengthLimit_no_pipe (n : Nat) (m : Str) (h : ('|' : Char) ∉ m) :
    ('|' : Char) ∉ lengthLimit n m := by
  rw [lengthLimit]
  split
  · intro hmem
    rcases List.mem_append.mp hmem with h2 | h2
    · exact h ((List.take_sublist _ _).subset h2)
    · exact absurd h2 (by decide)
  · exact h

/-- The whole cleanup chain preserves pipe-freeness. -/
theorem postRegex_no_pipe (m : Str) (h : ('|' : Char) ∉ m) :
    ('|' : Char) ∉ postRegex m := by
  have h1 := collapseNl_no_pipe m 0 h
  have h2 : ('|' : Char) ∉ trimStr (collapseNlAux 0 m) :=
    fun hx => h1 (mem_of_mem_trimStr _ _ hx)
  have h3 := fixHead_no_pipe _ 0 h2
  have h4 := fixLists_no_pipe _ none h3 (fun b hb => nomatch hb)
  have h5 := remLinks_no_pipe none _ h4 (fun b hb => nomatch hb)
  exact collapseSp_no_pipe _ 0 h5

/-- C5 counterexample: a table with a row but no text content is
removed entirely by the DOM normalisation pass — its whole text
content trims to empty — so even with `preserveTables = true` the
output contains no pipe-table syntax (it is the empty string),
contradicting the claim as stated. -/
theorem c5_empty_table_no_pipes :
  convertForest { preserveTables := true }
    [Node.elem (("table").toList) []
      [Node.elem (("tr").toList) [] [Node.elem (("td").toList) [] []]]] = [] := rfl

/-- C5 amended: for the representative table input (a header row and a
data row of non-empty text) the output with `preserveTables = true`
contains pipe-delimited rows and a header-separator row; and for every
input whose text and attribute values are pipe-free (and whose
attribute values carry no redirect markers, which would be
percent-decoded), the output with `preserveTables = false` contains no
pipe character at all — the table tags are stripped by the sanitizer
and no other rendering rule emits a pipe. -/
theorem c5_table_gating :
  (containsSub (("| H |").toList)
      (convertForest { preserveTables := true } c5TableForest) = true ∧
   containsSub (("| --- |").toList)
      (convertForest { preserveTables := true } c5TableForest) = true ∧
   containsSub (("| A |").toList)
      (convertForest { preserveTables := true } c5TableForest) = true) ∧
  (∀ (opts : Options) (f : List Node), opts.preserveTables = false →
    cleanForest f = true → ('|' : Char) ∉ convertForest opts f) := by
  constructor
  · exact ⟨rfl, rfl, rfl⟩
  · intro opts f hpt hclean
    obtain ⟨pt, ml, ia, ad, plb⟩ := opts
    have hpt2 : pt = false := hpt
    subst hpt2
    rw [convertForest, renderPipeline, renderForest]
    apply lengthLimit_no_pipe
    apply postRegex_no_pipe
    apply renderF_safe_no_pipe
    exact normalize_safe_forest _ (sanitize_clean_safe_forest ml ia ad plb f hclean)

/-- C5 witness: the negative half of the theorem applied at a concrete
pipe-free input with tables not preserved. -/
theorem c5_table_gating_witness :
  ({} : Options).preserveTables = false ∧
  cleanForest [Node.text (("x").toList)] = true ∧
  ('|' : Char) ∉ convertForest {} [Node.text (("x").toList)] :=
  ⟨rfl, by decide, c5_table_gating.2 {} [Node.text (("x").toList)] rfl (by decide)⟩

end HtmlMd
